import Mathlib

/-!
Shallow embedding of the `identicon` repository (Rust) and proofs about it.

Layout of the embedding, following the source files:
* `src/lib.rs`: constants `SPRITE_SIZE`/`IMAGE_SIZE`/`PIXEL_SIZE`/`MARGIN`,
  `gen`, `pixels`, `draw_rect`;
* `src/utils.rs`: `md5` (a wrapper around the external `Md5` crate);
* `src/bin/identicon-server.rs`: `load`, `gen_image`, an `LruCache` behind a
  single `tokio::sync::Mutex` held across the whole computation;
* `src/main.rs`: `gen_image` over a `quick_cache::sync::Cache` whose
  `get_or_insert_async` provides per-key single-flight computation.

Bytes are modelled as `Nat` (the arithmetic the code performs on them —
`/ 16`, `% 16`, `% 2`, `+`, `% len` — is written out explicitly), fixed-size
pixel buffers as update functions, and fallible operations (the `unwrap` on
the nibble iterator, PNG encoding) with `Option`.  The stateful caches are
modelled as explicit state machines stepped by events; a step that is not
enabled (a caller that would have to block) returns `none`.
-/

namespace Identicon

/-! ### Nibbles (src/nibbler.rs, absent from src) -/

/-- Modelled from the spec: `src/nibbler.rs` is absent from `src/`; the spec
fixes the `Nibbler` iterator's output as "a sequence of 32 half-byte (4-bit)
values in a fixed nibble order (high nibble before low nibble of each byte,
in byte order)". -/
def nibbles (hash : List Nat) : List Nat :=
  hash.flatMap (fun b => [b / 16, b % 16])

/-! ### Pattern generation (`pixels` in src/lib.rs) -/

/-- The cell visit order of the two nested loops in `pixels`:
`for col in (0..3).rev()` outside, `for row in 0..5` inside. -/
def cellOrder : List (Nat × Nat) :=
  (List.range 3).reverse.flatMap (fun col => (List.range 5).map (fun row => (col, row)))

/-- Point update of the flat 25-cell boolean buffer `[bool; 25]`
(`pixels[ix] = paint`), modelled as an update function. -/
def setCell (px : Nat → Bool) (i : Nat) (v : Bool) : Nat → Bool :=
  fun j => if j = i then v else px j

/-- The body of the loops in `pixels`: consume one nibble parity from the
iterator (`none` models a failing `unwrap`), set cell `(row, col)` at flat
index `col + row*5` and its mirror at `(4-col) + row*5`. -/
def fillLoop : List (Nat × Nat) → List Bool → (Nat → Bool) → Option (Nat → Bool)
  | [], _, px => some px
  | (col, row) :: rest, nibs, px =>
    match nibs with
    | [] => none
    | paint :: nibsRest =>
      let ix := col + row * 5
      let mirror_ix := (4 - col) + row * 5
      fillLoop rest nibsRest (setCell (setCell px ix paint) mirror_ix paint)

/-- `pixels` from src/lib.rs: map the nibble stream through `x % 2 == 0` and
fill the 25-cell grid (initially all `false`) in `cellOrder`. -/
def pixels (hash : List Nat) : Option (Nat → Bool) :=
  fillLoop cellOrder ((nibbles hash).map (fun x => x % 2 == 0)) (fun _ => false)

/-- The grid computed from an explicit nibble-parity stream; used to state
that `pixels` consumes exactly the first 15 nibbles of the stream. -/
def pixelsOfNibbles (nibs : List Bool) : Option (Nat → Bool) :=
  fillLoop cellOrder nibs (fun _ => false)

/-- Total view of the grid (`pixels` with the `unwrap` already discharged). -/
def grid (hash : List Nat) : Nat → Bool :=
  (pixels hash).getD (fun _ => false)

/-! ### Constants and the raster model (src/lib.rs) -/

def SPRITE_SIZE : Nat := 5

def IMAGE_SIZE : Nat := 290

def PIXEL_SIZE : Nat := IMAGE_SIZE / (SPRITE_SIZE + 1)

def MARGIN : Nat := PIXEL_SIZE / 2

/-- `Rgb<u8>` pixel values. -/
abbrev Rgb := Nat × Nat × Nat

/-- `RgbImage` (`ImageBuffer`): a width, a height, and the pixel contents as
a function of the coordinates. -/
structure Image where
  width : Nat
  height : Nat
  data : Nat → Nat → Rgb

/-- `ImageBuffer::from_pixel(w, h, c)`: a constant image. -/
def from_pixel (w h : Nat) (c : Rgb) : Image :=
  { width := w, height := h, data := fun _ _ => c }

/-- `image.put_pixel(x, y, color)`. -/
def put_pixel (img : Image) (x y : Nat) (c : Rgb) : Image :=
  { img with data := fun a b => if a = x ∧ b = y then c else img.data a b }

/-- `draw_rect` from src/lib.rs: `for x in x0..x1 { for y in y0..y1 {
image.put_pixel(x, y, color) } }`. -/
def draw_rect (image : Image) (x0 y0 x1 y1 : Nat) (color : Rgb) : Image :=
  (List.range' x0 (x1 - x0)).foldl
    (fun im x =>
      (List.range' y0 (y1 - y0)).foldl (fun im2 y => put_pixel im2 x y color) im)
    image

/-! ### Hashing (src/utils.rs) and the palette (src/colors.rs, absent) -/

/-- Modelled from the spec: `src/utils.rs` wraps the external `Md5` crate,
whose algorithm is not part of this repository; the spec fixes only that
`HashSeed` is a pure, total, deterministic function from an arbitrary byte
sequence to a fixed 16-byte digest.  Stand-in mixing function with the same
signature `&[u8] -> [u8; 16]`. -/
def md5 (data : List Nat) : List Nat :=
  (List.range 16).map (fun i =>
    data.foldl (fun acc b => (acc * 31 + b + 1) % 256) ((i * 37 + 11) % 256))

/-- Modelled from the spec: `src/colors.rs` is absent from `src/`; the spec
fixes only that `DARK_COLORS` is a fixed palette of dark colors.  Stand-in
concrete nonempty palette. -/
def DARK_COLORS : List Rgb :=
  [(44, 62, 80), (52, 73, 94), (90, 59, 41), (66, 73, 73),
   (25, 42, 86), (51, 0, 25), (64, 64, 122), (34, 49, 63)]

/-- The fixed background color `Rgb([240, 240, 240])` from `gen`. -/
def background : Rgb := (240, 240, 240)

/-- The foreground selection in `gen`:
`DARK_COLORS[(hash[11] + hash[12] + hash[15]) % DARK_COLORS.len()]`. -/
def foregroundOf (hash : List Nat) : Rgb :=
  DARK_COLORS.getD ((hash.getD 11 0 + hash.getD 12 0 + hash.getD 15 0) % DARK_COLORS.length)
    (0, 0, 0)

/-! ### `gen` (src/lib.rs) -/

/-- The `(row, col)` pairs visited by `gen`'s loops:
`pixels(hash).chunks(5).enumerate()` gives the rows, the inner `enumerate`
the columns. -/
def cellList : List (Nat × Nat) :=
  (List.range 5).flatMap (fun row => (List.range 5).map (fun col => (row, col)))

/-- The loop body of `gen`: when cell `(row, col) = (rc.1, rc.2)` of the
grid is painted, draw the rectangle
`[x+MARGIN, x+PIXEL_SIZE+MARGIN) × [y+MARGIN, y+PIXEL_SIZE+MARGIN)` with
`x = col * PIXEL_SIZE`, `y = row * PIXEL_SIZE` in the foreground color. -/
def drawCell (px : Nat → Bool) (foreground : Rgb) (image : Image) (rc : Nat × Nat) :
    Image :=
  if px (rc.2 + rc.1 * 5) then
    draw_rect image (rc.2 * PIXEL_SIZE + MARGIN) (rc.1 * PIXEL_SIZE + MARGIN)
      (rc.2 * PIXEL_SIZE + PIXEL_SIZE + MARGIN) (rc.1 * PIXEL_SIZE + PIXEL_SIZE + MARGIN)
      foreground
  else image

/-- `gen` from src/lib.rs: hash the input, start from a constant background
canvas of `IMAGE_SIZE × IMAGE_SIZE`, and for every painted cell draw its
rectangle in the foreground color.  `none` models the `unwrap` panic inside
`pixels`. -/
def gen (data : List Nat) : Option Image :=
  let hash := md5 data
  let foreground := foregroundOf hash
  (pixels hash).map (fun px =>
    cellList.foldl (drawCell px foreground) (from_pixel IMAGE_SIZE IMAGE_SIZE background))

/-! ### Encoding and the cache entry (both server binaries) -/

/-- Modelled from the spec: the PNG writer (`image` crate) is external; the
spec fixes only that encoding is a deterministic, lossless serialization of
the bitmap.  Stand-in row-major RGB byte dump. -/
def pngEncode (img : Image) : List Nat :=
  (List.range img.height).flatMap (fun y =>
    (List.range img.width).flatMap (fun x =>
      [(img.data x y).1, (img.data x y).2.1, (img.data x y).2.2]))

def hexDigitChar (n : Nat) : Char :=
  if n < 10 then Char.ofNat (48 + n) else Char.ofNat (87 + n)

/-- Modelled from the spec: `hex::encode` is an external crate; lower-case
hex encoding of a byte sequence. -/
def hexEncode (bytes : List Nat) : String :=
  String.mk (bytes.flatMap (fun b => [hexDigitChar (b / 16), hexDigitChar (b % 16)]))

/-- `CacheEntry { image: Bytes, etag: FastStr }`, identical in both server
binaries. -/
structure CacheEntry where
  image : List Nat
  etag : String
deriving DecidableEq

/-- `load` from src/bin/identicon-server.rs (the closure passed to
`get_or_insert_async` in src/main.rs is the same computation): generate the
bitmap, PNG-encode it into `buf`, and fingerprint the encoded bytes with
`hex::encode(md5(&buf))`. -/
def load (name : List Nat) : Option CacheEntry :=
  (gen name).map (fun img =>
    let buf := pngEncode img
    { image := buf, etag := hexEncode (md5 buf) })

/-! ### HTTP response logic (`gen_image` in both binaries) -/

/-- An HTTP response: status code, body bytes, headers. -/
structure Response where
  status : Nat
  body : List Nat
  headers : List (String × String)

def faviconIco : List Nat := "favicon.ico".toList.map Char.toNat

def notFoundBody : List Nat := "nothing to see here".toList.map Char.toNat

/-- The response logic of `gen_image` (src/main.rs): special-case
`favicon.ico`, otherwise obtain the identifier's `CacheEntry` from the cache
and answer 304 when `If-None-Match` equals the entry's etag, 200 with the
image bytes otherwise.  `entry` is the cache's entry for `name`. -/
def gen_image (name : List Nat) (ifNoneMatch : Option String) (entry : CacheEntry) :
    Response :=
  if name = faviconIco then
    { status := 404, body := notFoundBody, headers := [] }
  else
    let responseHeaders :=
      [("Content-Type", "image/png"),
       ("Cache-Control", "public, max-age=30672000"),
       ("ETag", entry.etag)]
    match ifNoneMatch with
    | some etag =>
      if etag = entry.etag then
        { status := 304, body := [], headers := responseHeaders }
      else
        { status := 200, body := entry.image, headers := responseHeaders }
    | none => { status := 200, body := entry.image, headers := responseHeaders }

/-! ### Association-list lookup shared by the cache models -/

/-- First-match association lookup (key equality), used by the cache models. -/
def assocFind {κ ε : Type} [DecidableEq κ] : List (κ × ε) → κ → Option ε
  | [], _ => none
  | (k2, v) :: rest, k => if k2 = k then some v else assocFind rest k

/-! ### The LRU cache (`lru` crate behind `Mutex` in identicon-server.rs) -/

/-- Modelled from the spec: the `lru` crate is external; the spec fixes a
bounded table "ordered by recency of access", refreshed on every hit, with
the least-recently-used entry evicted on insert beyond capacity.  The entry
list is kept most-recent-first. -/
structure LruCache (κ ε : Type) where
  cap : Nat
  entries : List (κ × ε)

/-- Modelled from the spec: `LruCache::get_or_insert(k, f)` — on a hit
return the stored value and move the key to the front (recency refresh); on
a miss compute `f ()`, insert at the front and truncate to capacity,
dropping the least-recently-used tail entry when over capacity. -/
def LruCache.get_or_insert {κ ε : Type} [DecidableEq κ] (c : LruCache κ ε) (k : κ)
    (f : Unit → ε) : ε × LruCache κ ε :=
  match assocFind c.entries k with
  | some e => (e, ⟨c.cap, (k, e) :: c.entries.filter (fun p => !decide (p.1 = k))⟩)
  | none =>
    let e := f ()
    (e, ⟨c.cap, ((k, e) :: c.entries).take c.cap⟩)

/-- The keys currently present, most recent first. -/
def LruCache.keys {κ ε : Type} (c : LruCache κ ε) : List κ :=
  c.entries.map Prod.fst

/-- Folding `get_or_insert` over a list of identifiers (one request each). -/
def insertAll {κ ε : Type} [DecidableEq κ] (c : LruCache κ ε) (ks : List κ)
    (f : κ → ε) : LruCache κ ε :=
  ks.foldl (fun c2 k => (c2.get_or_insert k (fun _ => f k)).2) c

/-! ### The single-flight cache (`quick_cache::sync::Cache` in src/main.rs) -/

/-- Events observable at the cache boundary: caller `c` requests identifier
`k` (`gen_image` entering `get_or_insert_async`), or the in-flight
computation for `k` completes. -/
inductive SFEvent (κ : Type) where
  | req (c : Nat) (k : κ)
  | complete (k : κ)

/-- State of the single-flight cache: completed entries, in-flight
identifiers with their registered waiters, and the entries delivered to
callers so far. -/
structure SFState (κ ε : Type) where
  table : List (κ × ε)
  pending : List (κ × List Nat)
  delivered : List (Nat × ε)

/-- Modelled from the spec: `quick_cache`'s `get_or_insert_async` is an
external crate; the spec fixes the per-identifier state machine
`Absent → Pending → Present`.  A request is answered immediately from the
table on a hit, joins the waiter set of an identifier already in flight, or
registers the identifier as in flight; a completion runs the computation
pipeline `compute` once and delivers the entry to every waiter.  `none`
marks a step that is not enabled. -/
def sfStep {κ ε : Type} [DecidableEq κ] (compute : κ → ε) (s : SFState κ ε) :
    SFEvent κ → Option (SFState κ ε)
  | .req c k =>
    match assocFind s.table k with
    | some e => some { s with delivered := (c, e) :: s.delivered }
    | none =>
      match assocFind s.pending k with
      | some ws =>
        some { s with pending := (k, c :: ws) :: s.pending.filter (fun p => !decide (p.1 = k)) }
      | none => some { s with pending := (k, [c]) :: s.pending }
  | .complete k =>
    match assocFind s.pending k with
    | some ws =>
      some { table := (k, compute k) :: s.table,
             pending := s.pending.filter (fun p => !decide (p.1 = k)),
             delivered := ws.map (fun c => (c, compute k)) ++ s.delivered }
    | none => none

/-- Run a sequence of events; fails if any step is not enabled. -/
def sfRun {κ ε : Type} [DecidableEq κ] (compute : κ → ε) (s : SFState κ ε) :
    List (SFEvent κ) → Option (SFState κ ε)
  | [] => some s
  | e :: es =>
    match sfStep compute s e with
    | some s2 => sfRun compute s2 es
    | none => none

/-! ### The coarse-lock cache (`Mutex<LruCache>` in identicon-server.rs) -/

/-- Events of the coarse-lock handler: caller `c` starts `gen_image` for
identifier `k` by awaiting `cache.lock()`, or the lock-holding caller `c`
finishes `get_or_insert(k, || load(k))` and releases the lock. -/
inductive CoarseEvent (κ : Type) where
  | acquire (c : Nat) (k : κ)
  | serve (c : Nat) (k : κ)

/-- State of the coarse-lock handler: who currently holds the single
`tokio::sync::Mutex` (none when it is free), and the guarded `LruCache`. -/
structure CoarseState (κ ε : Type) where
  holder : Option Nat
  cache : LruCache κ ε

/-- Modelled from the spec's concurrency model applied to
src/bin/identicon-server.rs: `gen_image` acquires the single mutex before
touching the cache (the `acquire` step is enabled only while no other caller
holds it — a caller that cannot acquire is blocked), then performs the whole
`get_or_insert` (including the `load` computation) and releases the lock. -/
def coarseStep {κ ε : Type} [DecidableEq κ] (compute : κ → ε) (s : CoarseState κ ε) :
    CoarseEvent κ → Option (CoarseState κ ε)
  | .acquire c _ =>
    match s.holder with
    | none => some { s with holder := some c }
    | some _ => none
  | .serve c k =>
    if s.holder = some c then
      some { holder := none, cache := (s.cache.get_or_insert k (fun _ => compute k)).2 }
    else none

/-! ## Helper lemmas -/

lemma length16_destruct (l : List Nat) (h : l.length = 16) :
    ∃ b0 b1 b2 b3 b4 b5 b6 b7 b8 b9 b10 b11 b12 b13 b14 b15,
      l = [b0, b1, b2, b3, b4, b5, b6, b7, b8, b9, b10, b11, b12, b13, b14, b15] := by
  rcases l with _ | ⟨b0, l⟩
  · simp at h
  rcases l with _ | ⟨b1, l⟩
  · simp at h
  rcases l with _ | ⟨b2, l⟩
  · simp at h
  rcases l with _ | ⟨b3, l⟩
  · simp at h
  rcases l with _ | ⟨b4, l⟩
  · simp at h
  rcases l with _ | ⟨b5, l⟩
  · simp at h
  rcases l with _ | ⟨b6, l⟩
  · simp at h
  rcases l with _ | ⟨b7, l⟩
  · simp at h
  rcases l with _ | ⟨b8, l⟩
  · simp at h
  rcases l with _ | ⟨b9, l⟩
  · simp at h
  rcases l with _ | ⟨b10, l⟩
  · simp at h
  rcases l with _ | ⟨b11, l⟩
  · simp at h
  rcases l with _ | ⟨b12, l⟩
  · simp at h
  rcases l with _ | ⟨b13, l⟩
  · simp at h
  rcases l with _ | ⟨b14, l⟩
  · simp at h
  rcases l with _ | ⟨b15, l⟩
  · simp at h
  obtain rfl : l = [] := by simpa using h
  exact ⟨b0, b1, b2, b3, b4, b5, b6, b7, b8, b9, b10, b11, b12, b13, b14, b15, rfl⟩

lemma grid_cell (hash : List Nat) (h : hash.length = 16) :
    ∀ r < 5, ∀ c < 3,
      grid hash (c + r * 5) = ((nibbles hash).getD ((2 - c) * 5 + r) 0 % 2 == 0) ∧
      grid hash ((4 - c) + r * 5) = grid hash (c + r * 5) := by
  obtain ⟨b0, b1, b2, b3, b4, b5, b6, b7, b8, b9, b10, b11, b12, b13, b14, b15, rfl⟩ :=
    length16_destruct hash h
  intro r hr c hc
  interval_cases r <;> interval_cases c <;>
    exact ⟨by simp [grid, pixels, cellOrder, nibbles, fillLoop, setCell],
           by simp [grid, pixels, cellOrder, nibbles, fillLoop, setCell]⟩

lemma pixels_isSome (hash : List Nat) (h : hash.length = 16) :
    (pixels hash).isSome = true := by
  obtain ⟨b0, b1, b2, b3, b4, b5, b6, b7, b8, b9, b10, b11, b12, b13, b14, b15, rfl⟩ :=
    length16_destruct hash h
  simp [pixels, cellOrder, nibbles, fillLoop]

lemma pixels_take_15 (hash : List Nat) (h : hash.length = 16) :
    pixels hash = pixelsOfNibbles (((nibbles hash).map (fun x => x % 2 == 0)).take 15) := by
  obtain ⟨b0, b1, b2, b3, b4, b5, b6, b7, b8, b9, b10, b11, b12, b13, b14, b15, rfl⟩ :=
    length16_destruct hash h
  simp [pixels, pixelsOfNibbles, cellOrder, nibbles, fillLoop]

lemma nibbles_length16 (hash : List Nat) (h : hash.length = 16) :
    (nibbles hash).length = 32 := by
  obtain ⟨b0, b1, b2, b3, b4, b5, b6, b7, b8, b9, b10, b11, b12, b13, b14, b15, rfl⟩ :=
    length16_destruct hash h
  simp [nibbles]

lemma nibbles_order (hash : List Nat) (h : hash.length = 16) :
    ∀ i < 16, (nibbles hash).getD (2 * i) 0 = hash.getD i 0 / 16 ∧
      (nibbles hash).getD (2 * i + 1) 0 = hash.getD i 0 % 16 := by
  obtain ⟨b0, b1, b2, b3, b4, b5, b6, b7, b8, b9, b10, b11, b12, b13, b14, b15, rfl⟩ :=
    length16_destruct hash h
  intro i hi
  interval_cases i <;> exact ⟨by simp [nibbles], by simp [nibbles]⟩

lemma grid_mirror (hash : List Nat) (h : hash.length = 16) :
    ∀ r < 5, ∀ c < 5, grid hash (c + r * 5) = grid hash ((4 - c) + r * 5) := by
  intro r hr c hc
  interval_cases c
  · simpa using ((grid_cell hash h r hr 0 (by norm_num)).2).symm
  · simpa using ((grid_cell hash h r hr 1 (by norm_num)).2).symm
  · simp
  · simpa using (grid_cell hash h r hr 1 (by norm_num)).2
  · simpa using (grid_cell hash h r hr 0 (by norm_num)).2

/-! ## Claims -/

/-- C1: for every 16-byte digest, the pattern generator reads the digest as
32 nibbles (high nibble before low nibble of each byte, in byte order),
paints a cell iff the consumed nibble's numeric value is even, fills the
5×5 grid column-major from column 2 down to column 0, rows 0 to 4 (cell
`(r, c)` receives the parity of nibble `(2-c)*5 + r` of the stream),
mirrors each cell `(r, c)` into `(r, 4-c)`, and consumes exactly 15
nibbles (the `cellOrder` loop has 15 iterations and the grid depends only
on the first 15 nibbles of the stream). -/
theorem C1_pattern_generator (hash : List Nat) (h : hash.length = 16) :
    (nibbles hash).length = 32 ∧
    (∀ i < 16, (nibbles hash).getD (2 * i) 0 = hash.getD i 0 / 16 ∧
      (nibbles hash).getD (2 * i + 1) 0 = hash.getD i 0 % 16) ∧
    cellOrder.length = 15 ∧
    pixels hash = pixelsOfNibbles (((nibbles hash).map (fun x => x % 2 == 0)).take 15) ∧
    (∀ r < 5, ∀ c < 3,
      grid hash (c + r * 5) = ((nibbles hash).getD ((2 - c) * 5 + r) 0 % 2 == 0) ∧
      grid hash ((4 - c) + r * 5) = grid hash (c + r * 5)) :=
  ⟨nibbles_length16 hash h, nibbles_order hash h, by decide,
   pixels_take_15 hash h, grid_cell hash h⟩

/-- Witness for C1 at the concrete digest `[0, 1, ..., 15]`. -/
theorem C1_pattern_generator_witness :
    (List.range 16).length = 16 ∧
    grid (List.range 16) (2 + 0 * 5) =
      ((nibbles (List.range 16)).getD ((2 - 2) * 5 + 0) 0 % 2 == 0) :=
  ⟨by decide,
   ((C1_pattern_generator (List.range 16) (by decide)).2.2.2.2 0 (by norm_num) 2
     (by norm_num)).1⟩

/-- C4: for the 25-cell grid produced from every 16-byte digest, the cell at
row `r`, column `c` (flat index `c + r*5`, the indexing used by the source)
equals the cell at row `r`, column `4 - c`, for all `r < 5`, `c < 5`. -/
theorem C4_mirror_invariant (hash : List Nat) (h : hash.length = 16) :
    ∀ r < 5, ∀ c < 5, grid hash (c + r * 5) = grid hash ((4 - c) + r * 5) :=
  grid_mirror hash h

/-- Witness for C4 at the concrete digest `[0, 1, ..., 15]`. -/
theorem C4_mirror_invariant_witness :
    (List.range 16).length = 16 ∧
    grid (List.range 16) (0 + 1 * 5) = grid (List.range 16) ((4 - 0) + 1 * 5) :=
  ⟨by decide,
   C4_mirror_invariant (List.range 16) (by decide) 1 (by norm_num) 0 (by norm_num)⟩

lemma md5_length (data : List Nat) : (md5 data).length = 16 := by
  simp [md5]

/-- C7: the foreground color is the palette entry at index
`(digest[11] + digest[12] + digest[15]) mod palette_size`, it depends on
those three digest bytes only, and the background is the fixed constant
`(240, 240, 240)`. -/
theorem C7_foreground_color :
    (∀ hash : List Nat,
      foregroundOf hash =
        DARK_COLORS.getD
          ((hash.getD 11 0 + hash.getD 12 0 + hash.getD 15 0) % DARK_COLORS.length)
          (0, 0, 0)) ∧
    (∀ h1 h2 : List Nat, h1.getD 11 0 = h2.getD 11 0 → h1.getD 12 0 = h2.getD 12 0 →
      h1.getD 15 0 = h2.getD 15 0 → foregroundOf h1 = foregroundOf h2) ∧
    background = (240, 240, 240) := by
  refine ⟨fun hash => rfl, ?_, rfl⟩
  intro h1 h2 e11 e12 e15
  simp only [foregroundOf]
  rw [e11, e12, e15]

/-- Witness for C7: two digests agreeing only on bytes 11, 12, 15 get the
same foreground color. -/
theorem C7_foreground_color_witness :
    foregroundOf [1, 2, 3, 4, 5, 6, 7, 8, 9, 10, 11, 12, 13, 14, 15, 16] =
      foregroundOf [99, 98, 97, 96, 95, 94, 93, 92, 91, 90, 89, 12, 13, 88, 87, 16] :=
  C7_foreground_color.2.1
    [1, 2, 3, 4, 5, 6, 7, 8, 9, 10, 11, 12, 13, 14, 15, 16]
    [99, 98, 97, 96, 95, 94, 93, 92, 91, 90, 89, 12, 13, 88, 87, 16]
    (by decide) (by decide) (by decide)

/-- C8: generation is deterministic — the full pipeline (digest, pattern,
raster, PNG encode, fingerprint) is a pure function of the input bytes, so
equal inputs give bit-identical encoded image bytes and equal fingerprints,
and re-encoding the same bitmap gives the same fingerprint. -/
theorem C8_determinism :
    (∀ b1 b2 : List Nat, b1 = b2 →
      load b1 = load b2 ∧ (load b1).map CacheEntry.etag = (load b2).map CacheEntry.etag) ∧
    (∀ x y : Image, x = y →
      pngEncode x = pngEncode y ∧
        hexEncode (md5 (pngEncode x)) = hexEncode (md5 (pngEncode y))) := by
  exact ⟨fun b1 b2 h => by rw [h]; exact ⟨rfl, rfl⟩,
         fun x y h => by rw [h]; exact ⟨rfl, rfl⟩⟩

/-- Witness for C8 at the concrete input `[104, 105]`. -/
theorem C8_determinism_witness :
    load [104, 105] = load [104, 105] ∧
    (load [104, 105]).map CacheEntry.etag = (load [104, 105]).map CacheEntry.etag :=
  C8_determinism.1 [104, 105] [104, 105] rfl

/-- C9: for every request to `/{identifier}` other than `favicon.ico`, if
the `If-None-Match` request header equals the identifier's current
fingerprint the response is 304 with no body; otherwise it is 200 with the
encoded image bytes as body and headers `Content-Type: image/png`,
`Cache-Control: public, max-age=30672000` and `ETag` set to the
fingerprint. -/
theorem C9_conditional_response (name : List Nat) (inm : Option String)
    (entry : CacheEntry) (hfav : name ≠ faviconIco) :
    (inm = some entry.etag →
      gen_image name inm entry =
        { status := 304, body := [],
          headers := [("Content-Type", "image/png"),
                      ("Cache-Control", "public, max-age=30672000"),
                      ("ETag", entry.etag)] }) ∧
    (inm ≠ some entry.etag →
      gen_image name inm entry =
        { status := 200, body := entry.image,
          headers := [("Content-Type", "image/png"),
                      ("Cache-Control", "public, max-age=30672000"),
                      ("ETag", entry.etag)] }) := by
  constructor
  · intro hmatch
    subst hmatch
    simp [gen_image, hfav]
  · intro hmiss
    cases inm with
    | none => simp [gen_image, hfav]
    | some e =>
      have hne : e ≠ entry.etag := fun he => hmiss (by rw [he])
      simp [gen_image, hfav, hne]

/-- Witness for C9: a matching `If-None-Match` on a non-favicon name yields
the 304 response. -/
theorem C9_conditional_response_witness :
    [97] ≠ faviconIco ∧
    gen_image [97] (some "abcd") { image := [1, 2, 3], etag := "abcd" } =
      { status := 304, body := [],
        headers := [("Content-Type", "image/png"),
                    ("Cache-Control", "public, max-age=30672000"),
                    ("ETag", "abcd")] } :=
  ⟨by decide,
   (C9_conditional_response [97] (some "abcd") { image := [1, 2, 3], etag := "abcd" }
     (by decide)).1 rfl⟩

/-- C10: totality of the generator — the digest always has 16 bytes, the
nibble iterator satisfies all 15 requests of the grid loop (the `unwrap`
never fails, so `pixels` and `gen` always return a value), the palette
index is always strictly below the palette length, and every rectangle
drawn by `gen` stays inside the 290×290 canvas. -/
theorem C10_totality :
    (∀ data : List Nat, (md5 data).length = 16) ∧
    (∀ hash : List Nat, hash.length = 16 → (pixels hash).isSome = true) ∧
    (∀ data : List Nat, (gen data).isSome = true) ∧
    (∀ hash : List Nat,
      (hash.getD 11 0 + hash.getD 12 0 + hash.getD 15 0) % DARK_COLORS.length <
        DARK_COLORS.length) ∧
    (∀ row < 5, ∀ col < 5,
      col * PIXEL_SIZE + PIXEL_SIZE + MARGIN ≤ IMAGE_SIZE ∧
      row * PIXEL_SIZE + PIXEL_SIZE + MARGIN ≤ IMAGE_SIZE) := by
  refine ⟨md5_length, pixels_isSome, ?_, ?_, by decide⟩
  · intro data
    have h := pixels_isSome (md5 data) (md5_length data)
    simp only [gen, Option.isSome_map]
    exact h
  · intro hash
    exact Nat.mod_lt _ (by decide)

/-- Witness for C10: the second component instantiated at the all-zero
digest. -/
theorem C10_totality_witness :
    (List.replicate 16 0).length = 16 ∧
    (pixels (List.replicate 16 0)).isSome = true :=
  ⟨by decide, C10_totality.2.1 (List.replicate 16 0) (by decide)⟩

lemma foldl_put_col (c : Rgb) (x : Nat) :
    ∀ (n y0 : Nat) (im : Image) (a b : Nat),
      ((List.range' y0 n).foldl (fun im2 y => put_pixel im2 x y c) im).data a b =
        if a = x ∧ y0 ≤ b ∧ b < y0 + n then c else im.data a b := by
  intro n
  induction n with
  | zero =>
    intro y0 im a b
    rw [if_neg]
    · rfl
    · rintro ⟨_, h1, h2⟩; omega
  | succ n ih =>
    intro y0 im a b
    rw [List.range'_succ, List.foldl_cons, ih]
    simp only [put_pixel]
    by_cases hx : a = x
    · subst hx
      simp only [true_and, eq_self_iff_true]
      split_ifs <;> first | rfl | omega
    · simp [hx]

lemma foldl_put_col_dims (c : Rgb) (x : Nat) :
    ∀ (n y0 : Nat) (im : Image),
      ((List.range' y0 n).foldl (fun im2 y => put_pixel im2 x y c) im).width = im.width ∧
      ((List.range' y0 n).foldl (fun im2 y => put_pixel im2 x y c) im).height = im.height := by
  intro n
  induction n with
  | zero => intro y0 im; exact ⟨rfl, rfl⟩
  | succ n ih =>
    intro y0 im
    rw [List.range'_succ, List.foldl_cons]
    exact ih (y0 + 1) (put_pixel im x y0 c)

lemma draw_rect_data (im : Image) (x0 y0 x1 y1 : Nat) (c : Rgb) (a b : Nat) :
    (draw_rect im x0 y0 x1 y1 c).data a b =
      if (x0 ≤ a ∧ a < x1) ∧ (y0 ≤ b ∧ b < y1) then c else im.data a b := by
  unfold draw_rect
  have aux : ∀ (n x2 : Nat) (im : Image),
      ((List.range' x2 n).foldl
        (fun im x => (List.range' y0 (y1 - y0)).foldl (fun im2 y => put_pixel im2 x y c) im)
        im).data a b =
      if (x2 ≤ a ∧ a < x2 + n) ∧ (y0 ≤ b ∧ b < y1) then c else im.data a b := by
    intro n
    induction n with
    | zero =>
      intro x2 im
      rw [if_neg]
      · rfl
      · rintro ⟨⟨h1, h2⟩, _⟩; omega
    | succ n ih =>
      intro x2 im
      rw [List.range'_succ, List.foldl_cons, ih, foldl_put_col]
      by_cases hx : a = x2
      · subst hx
        simp only [true_and, eq_self_iff_true, le_refl]
        split_ifs <;> first | rfl | omega
      · have hne : ¬(a = x2 ∧ y0 ≤ b ∧ b < y0 + (y1 - y0)) := fun h => hx h.1
        rw [if_neg hne]
        split_ifs <;> first | rfl | omega
  rw [aux]
  split_ifs <;> first | rfl | omega

lemma draw_rect_dims (im : Image) (x0 y0 x1 y1 : Nat) (c : Rgb) :
    (draw_rect im x0 y0 x1 y1 c).width = im.width ∧
    (draw_rect im x0 y0 x1 y1 c).height = im.height := by
  unfold draw_rect
  have aux : ∀ (n x2 : Nat) (im : Image),
      ((List.range' x2 n).foldl
        (fun im x => (List.range' y0 (y1 - y0)).foldl (fun im2 y => put_pixel im2 x y c) im)
        im).width = im.width ∧
      ((List.range' x2 n).foldl
        (fun im x => (List.range' y0 (y1 - y0)).foldl (fun im2 y => put_pixel im2 x y c) im)
        im).height = im.height := by
    intro n
    induction n with
    | zero => intro x2 im; exact ⟨rfl, rfl⟩
    | succ n ih =>
      intro x2 im
      rw [List.range'_succ, List.foldl_cons]
      refine ⟨?_, ?_⟩
      · rw [(ih _ _).1, (foldl_put_col_dims c x2 _ _ _).1]
      · rw [(ih _ _).2, (foldl_put_col_dims c x2 _ _ _).2]
  exact aux _ _ _

lemma foldl_drawCell (px : Nat → Bool) (fg : Rgb) :
    ∀ (L : List (Nat × Nat)) (im : Image) (a b : Nat),
      (L.foldl (drawCell px fg) im).data a b =
        if ∃ rc ∈ L, px (rc.2 + rc.1 * 5) = true ∧
            rc.2 * PIXEL_SIZE + MARGIN ≤ a ∧ a < rc.2 * PIXEL_SIZE + PIXEL_SIZE + MARGIN ∧
            rc.1 * PIXEL_SIZE + MARGIN ≤ b ∧ b < rc.1 * PIXEL_SIZE + PIXEL_SIZE + MARGIN
          then fg else im.data a b := by
  intro L
  induction L with
  | nil => intro im a b; simp
  | cons rc L ih =>
    intro im a b
    rw [List.foldl_cons, ih]
    by_cases hL : ∃ rc ∈ L, px (rc.2 + rc.1 * 5) = true ∧
        rc.2 * PIXEL_SIZE + MARGIN ≤ a ∧ a < rc.2 * PIXEL_SIZE + PIXEL_SIZE + MARGIN ∧
        rc.1 * PIXEL_SIZE + MARGIN ≤ b ∧ b < rc.1 * PIXEL_SIZE + PIXEL_SIZE + MARGIN
    · rw [if_pos hL, if_pos]
      obtain ⟨rc2, hmem, hrest⟩ := hL
      exact ⟨rc2, List.mem_cons_of_mem _ hmem, hrest⟩
    · rw [if_neg hL]
      by_cases hpaint : px (rc.2 + rc.1 * 5) = true
      · rw [drawCell, if_pos hpaint, draw_rect_data]
        by_cases hin :
            (rc.2 * PIXEL_SIZE + MARGIN ≤ a ∧ a < rc.2 * PIXEL_SIZE + PIXEL_SIZE + MARGIN) ∧
            (rc.1 * PIXEL_SIZE + MARGIN ≤ b ∧ b < rc.1 * PIXEL_SIZE + PIXEL_SIZE + MARGIN)
        · rw [if_pos hin, if_pos]
          exact ⟨rc, List.mem_cons_self _ _, hpaint, hin.1.1, hin.1.2, hin.2.1, hin.2.2⟩
        · rw [if_neg hin, if_neg]
          rintro ⟨rc2, hmem, hp, h1, h2, h3, h4⟩
          rcases List.mem_cons.mp hmem with rfl | hmem2
          · exact hin ⟨⟨h1, h2⟩, ⟨h3, h4⟩⟩
          · exact hL ⟨rc2, hmem2, hp, h1, h2, h3, h4⟩
      · rw [drawCell, if_neg hpaint, if_neg]
        rintro ⟨rc2, hmem, hp, hrest⟩
        rcases List.mem_cons.mp hmem with rfl | hmem2
        · exact hpaint hp
        · exact hL ⟨rc2, hmem2, hp, hrest⟩

lemma foldl_drawCell_dims (px : Nat → Bool) (fg : Rgb) :
    ∀ (L : List (Nat × Nat)) (im : Image),
      (L.foldl (drawCell px fg) im).width = im.width ∧
      (L.foldl (drawCell px fg) im).height = im.height := by
  intro L
  induction L with
  | nil => intro im; exact ⟨rfl, rfl⟩
  | cons rc L ih =>
    intro im
    rw [List.foldl_cons]
    refine ⟨?_, ?_⟩
    · rw [(ih _).1]
      unfold drawCell
      split_ifs
      · exact (draw_rect_dims _ _ _ _ _ _).1
      · rfl
    · rw [(ih _).2]
      unfold drawCell
      split_ifs
      · exact (draw_rect_dims _ _ _ _ _ _).2
      · rfl

lemma mem_cellList (rc : Nat × Nat) : rc ∈ cellList ↔ rc.1 < 5 ∧ rc.2 < 5 := by
  rcases rc with ⟨r, c⟩
  simp only [cellList, List.mem_flatMap, List.mem_map, List.mem_range]
  constructor
  · rintro ⟨row, hrow, col, hcol, heq⟩
    obtain ⟨rfl, rfl⟩ : row = r ∧ col = c := by
      injection heq with h1 h2; exact ⟨h1, h2⟩
    exact ⟨hrow, hcol⟩
  · rintro ⟨hr, hc⟩
    exact ⟨r, hr, c, hc, rfl⟩

/-- C6: the rendered bitmap is exactly 290×290; every painted grid cell at
row `r`, column `c` has its rectangle `[c*48+24, c*48+24+48) ×
[r*48+24, r*48+24+48)` filled with the foreground color, and every canvas
pixel outside all painted cells' rectangles retains the background color
set at initialization. -/
theorem C6_rasterizer (data : List Nat) :
    ∃ img, gen data = some img ∧ img.width = 290 ∧ img.height = 290 ∧
      ∀ x y : Nat,
        ((∃ r, r < 5 ∧ ∃ c, c < 5 ∧ grid (md5 data) (c + r * 5) = true ∧
            c * 48 + 24 ≤ x ∧ x < c * 48 + 24 + 48 ∧
            r * 48 + 24 ≤ y ∧ y < r * 48 + 24 + 48) →
          img.data x y = foregroundOf (md5 data)) ∧
        ((¬∃ r, r < 5 ∧ ∃ c, c < 5 ∧ grid (md5 data) (c + r * 5) = true ∧
            c * 48 + 24 ≤ x ∧ x < c * 48 + 24 + 48 ∧
            r * 48 + 24 ≤ y ∧ y < r * 48 + 24 + 48) →
          img.data x y = background) := by
  have hs := pixels_isSome (md5 data) (md5_length data)
  obtain ⟨px, hpx⟩ := Option.isSome_iff_exists.mp hs
  have hgrid : grid (md5 data) = px := by rw [grid, hpx]; rfl
  refine ⟨cellList.foldl (drawCell px (foregroundOf (md5 data)))
      (from_pixel IMAGE_SIZE IMAGE_SIZE background), ?_, ?_, ?_, ?_⟩
  · have hgen : gen data =
        Option.map
          (fun px => List.foldl (drawCell px (foregroundOf (md5 data)))
            (from_pixel IMAGE_SIZE IMAGE_SIZE background) cellList)
          (pixels (md5 data)) := rfl
    rw [hgen, hpx]
    rfl
  · rw [(foldl_drawCell_dims _ _ _ _).1]; rfl
  · rw [(foldl_drawCell_dims _ _ _ _).2]; rfl
  · intro x y
    constructor
    · rintro ⟨r, hr, c, hc, hpaint, h1, h2, h3, h4⟩
      rw [foldl_drawCell, if_pos]
      refine ⟨(r, c), (mem_cellList (r, c)).mpr ⟨hr, hc⟩, ?_, ?_, ?_, ?_, ?_⟩
      · rw [← hgrid]; exact hpaint
      · exact h1
      · exact h2
      · exact h3
      · exact h4
    · intro hnone
      rw [foldl_drawCell, if_neg]
      · rfl
      · rintro ⟨⟨r, c⟩, hmem, hp, h1, h2, h3, h4⟩
        obtain ⟨hr, hc⟩ := (mem_cellList (r, c)).mp hmem
        exact hnone ⟨r, hr, c, hc, by rw [hgrid]; exact hp, h1, h2, h3, h4⟩

section CacheLemmas

variable {κ ε : Type} [DecidableEq κ]

lemma assocFind_cons_self (k : κ) (v : ε) (l : List (κ × ε)) :
    assocFind ((k, v) :: l) k = some v := by
  simp [assocFind]

lemma assocFind_filter_ne (l : List (κ × ε)) (k : κ) :
    assocFind (l.filter (fun p => !decide (p.1 = k))) k = none := by
  induction l with
  | nil => rfl
  | cons p l ih =>
    by_cases h : p.1 = k
    · simp [List.filter_cons, h, ih]
    · simp [List.filter_cons, h, assocFind, ih]

lemma assocFind_eq_none_iff (l : List (κ × ε)) (k : κ) :
    assocFind l k = none ↔ k ∉ l.map Prod.fst := by
  induction l with
  | nil => simp [assocFind]
  | cons p l ih =>
    by_cases h : p.1 = k
    · simp [assocFind, h]
    · have h2 : ¬k = p.1 := fun hk => h hk.symm
      simp [assocFind, h, h2, ih]

lemma sfRun_append (compute : κ → ε) :
    ∀ (es1 es2 : List (SFEvent κ)) (s : SFState κ ε),
      sfRun compute s (es1 ++ es2) =
        (sfRun compute s es1).bind (fun s2 => sfRun compute s2 es2) := by
  intro es1
  induction es1 with
  | nil => intro es2 s; rfl
  | cons e es1 ih =>
    intro es2 s
    show sfRun compute s (e :: (es1 ++ es2)) = _
    cases h : sfStep compute s e with
    | none => simp [sfRun, h]
    | some s2 => simp [sfRun, h, ih]

lemma sfStep_req_pending (compute : κ → ε) (s : SFState κ ε) (c : Nat) (k : κ)
    (ws : List Nat) (ht : assocFind s.table k = none)
    (hp : assocFind s.pending k = some ws) :
    sfStep compute s (SFEvent.req c k) =
      some { s with pending := (k, c :: ws) :: s.pending.filter (fun p => !decide (p.1 = k)) } := by
  simp [sfStep, ht, hp]

lemma sfStep_req_absent (compute : κ → ε) (s : SFState κ ε) (c : Nat) (k : κ)
    (ht : assocFind s.table k = none) (hp : assocFind s.pending k = none) :
    sfStep compute s (SFEvent.req c k) = some { s with pending := (k, [c]) :: s.pending } := by
  simp [sfStep, ht, hp]

lemma sfRun_reqs (compute : κ → ε) (k : κ) :
    ∀ (cs : List Nat) (s : SFState κ ε) (ws : List Nat),
      assocFind s.table k = none → assocFind s.pending k = some ws →
      ∃ s2, sfRun compute s (cs.map (fun c => SFEvent.req c k)) = some s2 ∧
        s2.table = s.table ∧ s2.delivered = s.delivered ∧
        ∃ ws2, assocFind s2.pending k = some ws2 ∧ ∀ c, c ∈ ws2 ↔ c ∈ cs ∨ c ∈ ws := by
  intro cs
  induction cs with
  | nil =>
    intro s ws ht hp
    exact ⟨s, rfl, rfl, rfl, ws, hp, fun c => by simp⟩
  | cons c0 cs ih =>
    intro s ws ht hp
    have hstep := sfStep_req_pending compute s c0 k ws ht hp
    obtain ⟨s2, hrun, htab, hdel, ws2, hws2, hmem⟩ :=
      ih { s with pending := (k, c0 :: ws) :: s.pending.filter (fun p => !decide (p.1 = k)) }
        (c0 :: ws) ht (assocFind_cons_self k (c0 :: ws) _)
    refine ⟨s2, ?_, htab, hdel, ws2, hws2, fun c => ?_⟩
    · simp only [List.map_cons, sfRun, hstep]
      exact hrun
    · rw [hmem c]
      simp only [List.mem_cons]
      tauto

end CacheLemmas

/-- C2: for any identifier `k` absent from the cache (neither present nor in
flight), if callers `c0 :: cs` all request `k` before the first computation
completes, the run is valid, every caller is delivered the same entry
`compute k`, the entry is cached, and no second completion of `k` is
enabled — the computation pipeline runs exactly once. -/
theorem C2_single_flight {κ ε : Type} [DecidableEq κ] (compute : κ → ε) (k : κ)
    (c0 : Nat) (cs : List Nat) (s0 : SFState κ ε)
    (ht : assocFind s0.table k = none) (hp : assocFind s0.pending k = none) :
    ∃ s1, sfRun compute s0
        (((c0 :: cs).map (fun c => SFEvent.req c k)) ++ [SFEvent.complete k]) = some s1 ∧
      (∀ c ∈ c0 :: cs, (c, compute k) ∈ s1.delivered) ∧
      assocFind s1.table k = some (compute k) ∧
      sfStep compute s1 (SFEvent.complete k) = none := by
  have hstep0 := sfStep_req_absent compute s0 c0 k ht hp
  obtain ⟨s2, hrun, htab, hdel, ws2, hws2, hmem⟩ :=
    sfRun_reqs compute k cs { s0 with pending := (k, [c0]) :: s0.pending } [c0]
      ht (assocFind_cons_self k [c0] _)
  have hcomplete : sfStep compute s2 (SFEvent.complete k) =
      some { table := (k, compute k) :: s2.table,
             pending := s2.pending.filter (fun p => !decide (p.1 = k)),
             delivered := ws2.map (fun c => (c, compute k)) ++ s2.delivered } := by
    simp [sfStep, hws2]
  refine ⟨{ table := (k, compute k) :: s2.table,
            pending := s2.pending.filter (fun p => !decide (p.1 = k)),
            delivered := ws2.map (fun c => (c, compute k)) ++ s2.delivered },
    ?_, ?_, ?_, ?_⟩
  · simp only [List.map_cons, List.cons_append, sfRun, hstep0]
    rw [List.append_eq, sfRun_append, hrun]
    simp [sfRun, hcomplete]
  · intro c hc
    apply List.mem_append_left
    apply List.mem_map.mpr
    refine ⟨c, ?_, rfl⟩
    rw [hmem c]
    rcases List.mem_cons.mp hc with rfl | hcs
    · right; simp
    · left; exact hcs
  · exact assocFind_cons_self k (compute k) _
  · simp [sfStep, assocFind_filter_ne]

/-- Witness for C2: two concurrent callers for the absent identifier `7`,
starting from the empty cache state. -/
theorem C2_single_flight_witness :
    assocFind (SFState.table (κ := Nat) (ε := Nat) ⟨[], [], []⟩) 7 = none ∧
    ∃ s1, sfRun (fun k : Nat => k + 1) (⟨[], [], []⟩ : SFState Nat Nat)
        (([0, 1].map (fun c => SFEvent.req c 7)) ++ [SFEvent.complete 7]) = some s1 ∧
      (∀ c ∈ [0, 1], (c, 8) ∈ s1.delivered) ∧
      assocFind s1.table 7 = some 8 ∧
      sfStep (fun k : Nat => k + 1) s1 (SFEvent.complete 7) = none :=
  ⟨rfl, C2_single_flight (fun k : Nat => k + 1) 7 0 [1] ⟨[], [], []⟩ rfl rfl⟩

/-- C5 counterexample: in the embedding of src/bin/identicon-server.rs
(`Mutex<LruCache>`), while caller 0 holds the lock computing identifier `0`,
caller 1's `gen_image` for the distinct identifier `1` cannot take its
`cache.lock().await` step — a computation in flight for A does block
`getOrCompute` for B, so the claim as stated is false for this binary. -/
theorem C5_coarse_lock_blocks :
    coarseStep (fun k : Nat => k) { holder := some 0, cache := ⟨64, []⟩ }
      (CoarseEvent.acquire 1 1) = none := rfl

/-- C5 (amended): in the `quick_cache` variant (src/main.rs), a request step
is always enabled — no caller ever blocks on a computation in flight for a
distinct identifier; waiting happens only by joining the waiter set of the
same identifier.  In the `Mutex<LruCache>` variant the global lock is held
across the computation, so requests for distinct identifiers do block (see
the counterexample). -/
theorem C5_nonblocking_across_keys {κ ε : Type} [DecidableEq κ] (compute : κ → ε)
    (s : SFState κ ε) (c : Nat) (k : κ) :
    (sfStep compute s (SFEvent.req c k)).isSome = true := by
  unfold sfStep
  cases ht : assocFind s.table k with
  | some e => simp [ht]
  | none =>
    cases hp : assocFind s.pending k with
    | some ws => simp [ht, hp]
    | none => simp [ht, hp]

section LruLemmas

variable {κ ε : Type} [DecidableEq κ]

lemma keys_length (c : LruCache κ ε) : c.keys.length = c.entries.length :=
  List.length_map c.entries Prod.fst

lemma assocFind_isSome_of_mem_keys (l : List (κ × ε)) (k : κ)
    (h : k ∈ l.map Prod.fst) : ∃ e, assocFind l k = some e := by
  cases hf : assocFind l k with
  | none => exact absurd h ((assocFind_eq_none_iff l k).mp hf)
  | some e => exact ⟨e, rfl⟩

lemma filter_ne_length_lt (l : List (κ × ε)) (k : κ) (h : k ∈ l.map Prod.fst) :
    (l.filter (fun p => !decide (p.1 = k))).length < l.length := by
  induction l with
  | nil => simp at h
  | cons p l ih =>
    by_cases hp : p.1 = k
    · rw [List.filter_cons, if_neg (by simp [hp])]
      exact Nat.lt_succ_of_le (List.length_filter_le _ _)
    · have h2 : k ∈ l.map Prod.fst := by
        rcases List.mem_cons.mp h with heq | hm
        · exact absurd heq.symm hp
        · exact hm
      rw [List.filter_cons, if_pos (by simp [hp])]
      simpa using ih h2

lemma lru_hit_keys (c : LruCache κ ε) (k : κ) (f : Unit → ε) (e : ε)
    (h : assocFind c.entries k = some e) :
    (c.get_or_insert k f).2.cap = c.cap ∧
    (c.get_or_insert k f).2.keys = k :: c.keys.filter (fun a => !decide (a = k)) := by
  unfold LruCache.get_or_insert
  rw [h]
  refine ⟨rfl, ?_⟩
  show ((k, e) :: c.entries.filter (fun p => !decide (p.1 = k))).map Prod.fst = _
  rw [List.map_cons]
  congr 1
  show (c.entries.filter (fun p => !decide (p.1 = k))).map Prod.fst =
    (c.entries.map Prod.fst).filter (fun a => !decide (a = k))
  rw [List.filter_map]
  rfl

lemma lru_miss_keys (c : LruCache κ ε) (k : κ) (f : Unit → ε) (h : k ∉ c.keys) :
    (c.get_or_insert k f).2.cap = c.cap ∧
    (c.get_or_insert k f).2.keys = (k :: c.keys).take c.cap := by
  have hf : assocFind c.entries k = none := (assocFind_eq_none_iff _ _).mpr h
  unfold LruCache.get_or_insert
  rw [hf]
  exact ⟨rfl, by simp [LruCache.keys, List.map_take]⟩

lemma take_append_take (n : Nat) (A B : List κ) :
    (A ++ B.take n).take n = (A ++ B).take n := by
  rw [List.take_append_eq_append_take, List.take_append_eq_append_take, List.take_take,
    Nat.min_eq_left (Nat.sub_le n A.length)]

lemma insertAll_keys (f : κ → ε) :
    ∀ (ks : List κ) (c : LruCache κ ε), ks.Nodup → (∀ k ∈ ks, k ∉ c.keys) →
      c.entries.length ≤ c.cap →
      (insertAll c ks f).cap = c.cap ∧
      (insertAll c ks f).keys = (ks.reverse ++ c.keys).take c.cap := by
  intro ks
  induction ks with
  | nil =>
    intro c _ _ hlen
    refine ⟨rfl, ?_⟩
    rw [List.reverse_nil, List.nil_append,
      List.take_of_length_le (le_trans (le_of_eq (keys_length c)) hlen)]
    rfl
  | cons k ks ih =>
    intro c hnd hfresh hlen
    have hk : k ∉ c.keys := hfresh k (by simp)
    obtain ⟨hcap1, hkeys1⟩ := lru_miss_keys c k (fun _ => f k) hk
    have hlen1 : ((c.get_or_insert k (fun _ => f k)).2).entries.length ≤
        ((c.get_or_insert k (fun _ => f k)).2).cap := by
      rw [hcap1, ← keys_length, hkeys1]
      simp
    have hfresh1 : ∀ k2 ∈ ks, k2 ∉ ((c.get_or_insert k (fun _ => f k)).2).keys := by
      intro k2 hk2 hmem
      rw [hkeys1] at hmem
      rcases List.mem_cons.mp (List.mem_of_mem_take hmem) with rfl | hm
      · exact (List.nodup_cons.mp hnd).1 hk2
      · exact hfresh k2 (List.mem_cons_of_mem _ hk2) hm
    obtain ⟨hcap2, hkeys2⟩ :=
      ih ((c.get_or_insert k (fun _ => f k)).2) (List.nodup_cons.mp hnd).2 hfresh1 hlen1
    have hfold : insertAll c (k :: ks) f =
        insertAll ((c.get_or_insert k (fun _ => f k)).2) ks f := rfl
    rw [hfold]
    refine ⟨hcap2.trans hcap1, ?_⟩
    rw [hkeys2, hkeys1, hcap1, take_append_take]
    congr 1
    simp

end LruLemmas

/-- C3: the LRU cache invariants.
(i) the table never holds more than its capacity `N` of entries (capacity is
also preserved);
(ii) inserting `N+1` distinct identifiers `k0 :: rest` (with `|rest| = N`)
into an empty capacity-`N` cache with no repeated access leaves exactly the
most-recently-inserted `N` identifiers (`rest`, most recent first) present
and the first-inserted `k0` absent;
(iii) at capacity `N = |rest| + 2` with `k0` the least-recently-used entry,
a hit on `k0` refreshes its recency, so inserting the fresh `knew` evicts
`k1` — the least-recently-used among the *other* entries — and not `k0`. -/
theorem C3_lru_eviction :
    (∀ (κ ε : Type) (i : DecidableEq κ) (c : LruCache κ ε) (k : κ) (f : Unit → ε),
      c.entries.length ≤ c.cap →
      ((c.get_or_insert k f).2).cap = c.cap ∧
      ((c.get_or_insert k f).2).entries.length ≤ c.cap) ∧
    (∀ (κ ε : Type) (i : DecidableEq κ) (f : κ → ε) (k0 : κ) (rest : List κ),
      (k0 :: rest).Nodup →
      (insertAll ⟨rest.length, []⟩ (k0 :: rest) f).keys = rest.reverse ∧
      k0 ∉ (insertAll ⟨rest.length, []⟩ (k0 :: rest) f).keys ∧
      ∀ k ∈ rest, k ∈ (insertAll ⟨rest.length, []⟩ (k0 :: rest) f).keys) ∧
    (∀ (κ ε : Type) (i : DecidableEq κ) (f : κ → ε) (g : Unit → ε) (knew k0 k1 : κ)
        (rest : List κ), (knew :: k0 :: k1 :: rest).Nodup →
      ((((insertAll ⟨rest.length + 2, []⟩ (k0 :: k1 :: rest) f).get_or_insert k0 g).2
          ).get_or_insert knew (fun _ => f knew)).2.keys = knew :: k0 :: rest.reverse ∧
      k1 ∉ knew :: k0 :: rest.reverse ∧ k0 ∈ knew :: k0 :: rest.reverse ∧
      ∀ k ∈ rest, k ∈ knew :: k0 :: rest.reverse) := by
  refine ⟨?_, ?_, ?_⟩
  · intro κ ε i c k f hlen
    unfold LruCache.get_or_insert
    cases hf : assocFind c.entries k with
    | some e =>
      refine ⟨rfl, ?_⟩
      have hmem : k ∈ c.entries.map Prod.fst := by
        by_contra hnot
        rw [(assocFind_eq_none_iff _ _).mpr hnot] at hf
        exact Option.noConfusion hf
      have := filter_ne_length_lt c.entries k hmem
      simpa using Nat.succ_le_of_lt (lt_of_lt_of_le this hlen)
    | none =>
      refine ⟨rfl, ?_⟩
      simp
  · intro κ ε i f k0 rest hnd
    obtain ⟨hcap, hkeys⟩ :=
      insertAll_keys f (k0 :: rest) ⟨rest.length, []⟩ hnd
        (by intro k _ hk; simp [LruCache.keys] at hk) (by simp)
    have hkeys2 : (insertAll ⟨rest.length, []⟩ (k0 :: rest) f).keys = rest.reverse := by
      rw [hkeys]
      show ((k0 :: rest).reverse ++ ([] : List (κ × ε)).map Prod.fst).take rest.length = _
      rw [List.reverse_cons]
      simp only [List.map_nil, List.append_nil]
      rw [List.take_append_eq_append_take, List.take_of_length_le (by simp),
        List.length_reverse, Nat.sub_self, List.take_zero, List.append_nil]
    have hk0 : k0 ∉ rest := (List.nodup_cons.mp hnd).1
    refine ⟨hkeys2, ?_, ?_⟩
    · rw [hkeys2, List.mem_reverse]
      exact hk0
    · intro k hk
      rw [hkeys2, List.mem_reverse]
      exact hk
  · intro κ ε i f g knew k0 k1 rest hnd
    have hknew : knew ∉ k0 :: k1 :: rest := (List.nodup_cons.mp hnd).1
    have hnd1 : (k0 :: k1 :: rest).Nodup := (List.nodup_cons.mp hnd).2
    have hk0 : k0 ∉ k1 :: rest := (List.nodup_cons.mp hnd1).1
    have hnd2 : (k1 :: rest).Nodup := (List.nodup_cons.mp hnd1).2
    have hk1 : k1 ∉ rest := (List.nodup_cons.mp hnd2).1
    obtain ⟨hcap1, hkeys1⟩ :=
      insertAll_keys f (k0 :: k1 :: rest) ⟨rest.length + 2, []⟩ hnd1
        (by intro k _ hk; simp [LruCache.keys] at hk) (by simp)
    have hkeys1b : (insertAll ⟨rest.length + 2, []⟩ (k0 :: k1 :: rest) f).keys =
        rest.reverse ++ [k1, k0] := by
      rw [hkeys1]
      show ((k0 :: k1 :: rest).reverse ++ ([] : List (κ × ε)).map Prod.fst).take
          (rest.length + 2) = _
      simp only [List.map_nil, List.append_nil]
      rw [List.take_of_length_le (by simp)]
      simp
    have hmem0 : k0 ∈ (insertAll ⟨rest.length + 2, []⟩ (k0 :: k1 :: rest) f).entries.map
        Prod.fst := by
      show k0 ∈ (insertAll ⟨rest.length + 2, []⟩ (k0 :: k1 :: rest) f).keys
      rw [hkeys1b]
      simp
    obtain ⟨e, he⟩ := assocFind_isSome_of_mem_keys _ k0 hmem0
    obtain ⟨hcap2, hkeys2⟩ :=
      lru_hit_keys (insertAll ⟨rest.length + 2, []⟩ (k0 :: k1 :: rest) f) k0 g e he
    have hfilter : (insertAll ⟨rest.length + 2, []⟩ (k0 :: k1 :: rest) f).keys.filter
        (fun a => !decide (a = k0)) = rest.reverse ++ [k1] := by
      rw [hkeys1b, List.filter_append]
      have h1 : rest.reverse.filter (fun a => !decide (a = k0)) = rest.reverse := by
        apply List.filter_eq_self.mpr
        intro a ha
        have : a ∈ rest := List.mem_reverse.mp ha
        have hne : ¬a = k0 := fun hak => hk0 (hak ▸ List.mem_cons_of_mem _ this)
        simp [hne]
      have hne1 : ¬k1 = k0 := fun h => hk0 (h ▸ List.mem_cons_self _ _)
      rw [h1]
      congr 1
      simp [List.filter_cons, hne1]
    have hkeys2b : ((insertAll ⟨rest.length + 2, []⟩ (k0 :: k1 :: rest) f).get_or_insert
        k0 g).2.keys = k0 :: (rest.reverse ++ [k1]) := by
      rw [hkeys2, hfilter]
    have hfresh : knew ∉ ((insertAll ⟨rest.length + 2, []⟩ (k0 :: k1 :: rest)
        f).get_or_insert k0 g).2.keys := by
      rw [hkeys2b]
      intro hmem
      rcases List.mem_cons.mp hmem with rfl | hm
      · exact hknew (List.mem_cons_self _ _)
      · rcases List.mem_append.mp hm with hm2 | hm2
        · exact hknew (List.mem_cons_of_mem _ (List.mem_cons_of_mem _
            (List.mem_reverse.mp hm2)))
        · have : knew = k1 := by simpa using hm2
          exact hknew (this ▸ List.mem_cons_of_mem _ (List.mem_cons_self _ _))
    obtain ⟨hcap3, hkeys3⟩ :=
      lru_miss_keys ((insertAll ⟨rest.length + 2, []⟩ (k0 :: k1 :: rest)
        f).get_or_insert k0 g).2 knew (fun _ => f knew) hfresh
    have hkeysfinal : ((((insertAll ⟨rest.length + 2, []⟩ (k0 :: k1 :: rest)
        f).get_or_insert k0 g).2).get_or_insert knew (fun _ => f knew)).2.keys =
        knew :: k0 :: rest.reverse := by
      rw [hkeys3, hkeys2b, hcap2, hcap1]
      show (knew :: k0 :: (rest.reverse ++ [k1])).take ((rest.length + 1) + 1) = _
      rw [List.take_succ_cons, List.take_succ_cons,
        List.take_left' (List.length_reverse rest)]
    refine ⟨hkeysfinal, ?_, by simp, ?_⟩
    · intro hmem
      rcases List.mem_cons.mp hmem with heq | hmem2
      · exact hknew (heq ▸ List.mem_cons_of_mem _ (List.mem_cons_self _ _))
      · rcases List.mem_cons.mp hmem2 with heq | hmem3
        · exact hk0 (heq ▸ List.mem_cons_self _ _)
        · exact hk1 (List.mem_reverse.mp hmem3)
    · intro k hk
      exact List.mem_cons_of_mem _ (List.mem_cons_of_mem _ (List.mem_reverse.mpr hk))

/-- Witness for C3: capacity 2, inserting the three distinct identifiers
`0, 1, 2` leaves `[2, 1]` present (most recent first) and `0` evicted. -/
theorem C3_lru_eviction_witness :
    ([0, 1, 2] : List Nat).Nodup ∧
    ((insertAll (⟨2, []⟩ : LruCache Nat Nat) [0, 1, 2] (fun k => k)).keys = [2, 1] ∧
     (0 : Nat) ∉ (insertAll (⟨2, []⟩ : LruCache Nat Nat) [0, 1, 2] (fun k => k)).keys ∧
     ∀ k ∈ ([1, 2] : List Nat),
       k ∈ (insertAll (⟨2, []⟩ : LruCache Nat Nat) [0, 1, 2] (fun k => k)).keys) :=
  ⟨by decide,
   C3_lru_eviction.2.1 Nat Nat inferInstance (fun k => k) 0 [1, 2] (by decide)⟩

end Identicon
